import Mathlib

/-!
Verification of the file_url crate (Unix target).

Strings, OsStrings and paths are modelled as lists of byte values
(List Nat, each element below 256).  The definitions follow the source:
src/percent_ops.rs (encode_path_component, decode_path_component,
FILE_URL_BYTES) and src/lib.rs (file_url_to_pathbuf, to_file_url),
together with the std behaviour they rely on (Path::components,
PathBuf::push, Regex split on the class of slash and backslash).
-/

namespace FileUrl

/-- Membership test of the FILE_URL_BYTES set of percent_ops.rs: the
percent_encoding CONTROLS set (bytes 0x00..0x1F and 0x7F) plus the bytes
added one by one in the lazy_static block. -/
def FILE_URL_BYTES (b : Nat) : Bool :=
  decide (b ≤ 31) || decide (b = 127) ||
    decide (b ∈ [47, 32, 35, 36, 38, 43, 44, 59, 61, 63, 64, 91, 93,
                 123, 125, 96, 60, 62, 94, 33, 39, 40, 41, 42])

/-- Escape condition of the percent_encoding crate: a byte is escaped iff it
is not ASCII or it belongs to the given AsciiSet. -/
def shouldEncode (b : Nat) : Bool := decide (128 ≤ b) || FILE_URL_BYTES b

/-- Uppercase hexadecimal digit byte of a value below 16, as produced by
the static table of uppercase escape strings in the percent_encoding
crate. -/
def hexUpper (d : Nat) : Nat := if d < 10 then 48 + d else 55 + d

/-- Output of percent_encode for one input byte. -/
def encodeByte (b : Nat) : List Nat :=
  if shouldEncode b then [37, hexUpper (b / 16), hexUpper (b % 16)] else [b]

/-- Model of encode_path_component (Unix branch of percent_ops.rs): the raw
bytes of the OsString are percent-encoded against FILE_URL_BYTES. -/
def encode_path_component (bs : List Nat) : List Nat := bs.flatMap encodeByte

/-- Hex-digit test used by percent_decode via char::to_digit(16). -/
def isHexDigit (b : Nat) : Bool :=
  (decide (48 ≤ b) && decide (b ≤ 57)) || (decide (65 ≤ b) && decide (b ≤ 70)) ||
    (decide (97 ≤ b) && decide (b ≤ 102))

/-- Value of a hex-digit byte, as char::to_digit(16) computes it. -/
def hexVal (b : Nat) : Nat :=
  if b ≤ 57 then b - 48 else if b ≤ 70 then b - 55 else b - 87

/-- Model of decode_path_component (percent_ops.rs), i.e. of
percent_decode_str: a percent byte followed by two hex digits yields the
decoded byte, any other byte (including a percent with a malformed tail)
is passed through and decoding continues. -/
def decode_path_component : List Nat → List Nat
  | [] => []
  | 37 :: h :: l :: rest2 =>
    if isHexDigit h && isHexDigit l then
      (hexVal h * 16 + hexVal l) :: decode_path_component rest2
    else 37 :: decode_path_component (h :: l :: rest2)
  | 37 :: rest => 37 :: decode_path_component rest
  | b :: rest => b :: decode_path_component rest

/-- Byte test of the SEPARATOR regex class of lib.rs: slash or backslash. -/
def sepByte (b : Nat) : Bool := b == 47 || b == 92

/-- Byte test for the Unix path separator. -/
def slashByte (b : Nat) : Bool := b == 47

/-- Splitting a byte string at every byte satisfying f, keeping empty pieces,
as Regex::split does on a single-byte character class. -/
def splitP (f : Nat → Bool) : List Nat → List (List Nat)
  | [] => [[]]
  | b :: rest =>
    if f b then [] :: splitP f rest
    else (splitP f rest).modifyHead (fun s => b :: s)

/-- Model of Path::has_root on Unix: the byte string starts with a slash. -/
def hasRoot (p : List Nat) : Bool := p.head? == some 47

/-- Model of the include_cur_dir test of Path::components on Unix: the path
is exactly a dot, or starts with a dot followed by a separator. -/
def includeCurDir : List Nat → Bool
  | [46] => true
  | 46 :: b :: _ => b == 47
  | _ => false

/-- Path components as std::path::Component, restricted to the Unix cases. -/
inductive PathComponent where
  | rootDir
  | curDir
  | parentDir
  | normal (s : List Nat)
deriving DecidableEq

/-- A piece of the slash-split survives in Path::components iff it is neither
empty nor a single dot. -/
def isGoodPiece (s : List Nat) : Bool := !s.isEmpty && !(s == [46])

/-- A surviving piece becomes ParentDir when it is a double dot, and a Normal
component otherwise. -/
def pieceToComponent (s : List Nat) : PathComponent :=
  if s = [46, 46] then .parentDir else .normal s

/-- The surviving pieces of the slash-split of a Unix path. -/
def goodPieces (p : List Nat) : List (List Nat) :=
  (splitP slashByte p).filter isGoodPiece

/-- Model of Path::components on Unix: an optional RootDir, an optional
leading CurDir, then the surviving pieces. -/
def components (p : List Nat) : List PathComponent :=
  (if hasRoot p then [PathComponent.rootDir] else []) ++
  (if includeCurDir p then [PathComponent.curDir] else []) ++
  (goodPieces p).map pieceToComponent

/-- Model of PathBuf::push on Unix: an absolute pushed path replaces the
buffer; otherwise a separator is appended when the buffer is nonempty and
does not already end in one, then the pushed bytes are appended. -/
def pushPath (self q : List Nat) : List Nat :=
  if hasRoot q then q
  else if !self.isEmpty && !(self.getLast? == some 47) then self ++ 47 :: q
  else self ++ q

/-- Model of collect into a PathBuf: start from the empty buffer and push
every item in order. -/
def pathCollect (l : List (List Nat)) : List Nat := l.foldl pushPath []

/-- Bytes of the literal scheme token, the text file followed by a colon. -/
def fileScheme : List Nat := [102, 105, 108, 101, 58]

/-- The per-piece map of file_url_to_pathbuf: the piece at index zero equal
to the scheme token becomes the root marker, every other piece is decoded. -/
def urlPieceToOsString (i : Nat) (s : List Nat) : List Nat :=
  if i = 0 ∧ s = fileScheme then [47] else decode_path_component s

/-- Model of file_url_to_pathbuf of lib.rs: split on slash or backslash,
map each enumerated piece, collect into a PathBuf. -/
def file_url_to_pathbuf (url : List Nat) : List Nat :=
  pathCollect (((splitP sepByte url).enum).map (fun p => urlPieceToOsString p.1 p.2))

/-- The per-component match of to_file_url, parametrised by the function
applied to Normal components; the panic arm is modelled as none.  CurDir
and ParentDir yield the literal dot strings. -/
def componentToSegmentWith (f : List Nat → List Nat) :
    PathComponent → Option (List Nat)
  | .curDir => some [46]
  | .parentDir => some [46, 46]
  | .normal s => some (f s)
  | .rootDir => none

/-- The per-component match of to_file_url as written, encoding Normal
components with encode_path_component. -/
def componentToSegment : PathComponent → Option (List Nat) :=
  componentToSegmentWith encode_path_component

/-- Model of Vec::join with a slash separator. -/
def joinSlash : List (List Nat) → List Nat
  | [] => []
  | s :: rest => s ++ if rest.isEmpty then [] else 47 :: joinSlash rest

/-- Mapping componentToSegmentWith over a component list, propagating the
panic case as none. -/
def mapSegments (f : List Nat → List Nat) :
    List PathComponent → Option (List (List Nat))
  | [] => some []
  | c :: cs =>
    match componentToSegmentWith f c, mapSegments f cs with
    | some s, some rest => some (s :: rest)
    | _, _ => none

/-- Bytes of the output template head: the text file, a colon, three
slashes. -/
def fileUrlHead : List Nat := [102, 105, 108, 101, 58, 47, 47, 47]

/-- Model of to_file_url (Unix branch of lib.rs), parametrised by the
encoder applied to Normal components: skip the first component when the
path has a root, turn each remaining component into its segment, join the
segments with slashes after the template head. -/
def toFileUrlWith (f : List Nat → List Nat) (p : List Nat) : Option (List Nat) :=
  let cs := if hasRoot p then (components p).drop 1 else components p
  (mapSegments f cs).map (fun segs => fileUrlHead ++ joinSlash segs)

/-- Model of to_file_url as written, with encode_path_component. -/
def to_file_url : List Nat → Option (List Nat) := toFileUrlWith encode_path_component

/-- Total description of the segment a non-root component contributes. -/
def totalSegmentWith (f : List Nat → List Nat) : PathComponent → List Nat
  | .curDir => [46]
  | .parentDir => [46, 46]
  | .normal s => f s
  | .rootDir => []

/-- Total segment description with the encoder of the source. -/
def totalSegment : PathComponent → List Nat := totalSegmentWith encode_path_component

/-! Helper lemmas: hex digits. -/

theorem hexUpper_isHexDigit {d : Nat} (hd : d < 16) : isHexDigit (hexUpper d) = true := by
  interval_cases d <;> decide

theorem hexVal_hexUpper {d : Nat} (hd : d < 16) : hexVal (hexUpper d) = d := by
  interval_cases d <;> decide

theorem hexUpper_not_sep {d : Nat} (hd : d < 16) : sepByte (hexUpper d) = false := by
  interval_cases d <;> decide

theorem hexVal_lt {b : Nat} (hb : isHexDigit b = true) : hexVal b < 16 := by
  simp only [isHexDigit, Bool.or_eq_true, Bool.and_eq_true, decide_eq_true_eq] at hb
  unfold hexVal
  split
  · omega
  · split <;> omega

/-! Helper lemmas: decoding equations and facts. -/

theorem decode_nil : decode_path_component [] = [] := rfl

theorem decode_cons_lit {b : Nat} (rest : List Nat) (hb : b ≠ 37) :
    decode_path_component (b :: rest) = b :: decode_path_component rest := by
  cases rest with
  | nil => simp [decode_path_component, hb]
  | cons x t =>
    cases t with
    | nil => simp [decode_path_component, hb]
    | cons y t2 => simp [decode_path_component, hb]

theorem decode_pct_hex {h l : Nat} (rest : List Nat)
    (hh : isHexDigit h = true) (hl : isHexDigit l = true) :
    decode_path_component (37 :: h :: l :: rest) =
      (hexVal h * 16 + hexVal l) :: decode_path_component rest := by
  simp [decode_path_component, hh, hl]

theorem decode_no_pct {bs : List Nat} (h : 37 ∉ bs) : decode_path_component bs = bs := by
  induction bs with
  | nil => rfl
  | cons b rest ih =>
    have hb : b ≠ 37 := fun e => h (by simp [e])
    rw [decode_cons_lit rest hb, ih (fun hm => h (List.mem_cons_of_mem _ hm))]

/-! Helper lemmas: encoding equations and facts. -/

theorem encode_nil : encode_path_component [] = [] := rfl

theorem encode_cons (b : Nat) (rest : List Nat) :
    encode_path_component (b :: rest) = encodeByte b ++ encode_path_component rest := by
  simp [encode_path_component]

theorem encode_append (xs ys : List Nat) :
    encode_path_component (xs ++ ys) =
      encode_path_component xs ++ encode_path_component ys := by
  simp [encode_path_component]

theorem encode_singleton (b : Nat) : encode_path_component [b] = encodeByte b := by
  simp [encode_path_component]

theorem decode_encodeByte_append {b : Nat} (tl : List Nat) (hb : b < 256) (hp : b ≠ 37)
    (htl : decode_path_component tl = tl₀) :
    decode_path_component (encodeByte b ++ tl) = b :: tl₀ := by
  unfold encodeByte
  by_cases hs : shouldEncode b = true
  · rw [if_pos hs]
    have h1 : b / 16 < 16 := by omega
    have h2 : b % 16 < 16 := by omega
    simp only [List.cons_append, List.nil_append]
    rw [decode_pct_hex _ (hexUpper_isHexDigit h1) (hexUpper_isHexDigit h2),
      hexVal_hexUpper h1, hexVal_hexUpper h2, htl]
    congr 1
    omega
  · rw [if_neg hs]
    simp only [List.cons_append, List.nil_append]
    rw [decode_cons_lit _ hp, htl]

theorem decode_encode {bs : List Nat} (hlt : ∀ b ∈ bs, b < 256) (hp : 37 ∉ bs) :
    decode_path_component (encode_path_component bs) = bs := by
  induction bs with
  | nil => rfl
  | cons b rest ih =>
    rw [encode_cons]
    exact decode_encodeByte_append _ (hlt b (by simp))
      (fun e => hp (by simp [e]))
      (ih (fun x hx => hlt x (List.mem_cons_of_mem _ hx))
        (fun hm => hp (List.mem_cons_of_mem _ hm)))

theorem shouldEncode_47 : shouldEncode 47 = true := by decide

theorem encodeByte_not_sep {b : Nat} (hlt : b < 256) (hb : b ≠ 92) :
    ∀ c ∈ encodeByte b, sepByte c = false := by
  intro c hc
  unfold encodeByte at hc
  by_cases hs : shouldEncode b = true
  · rw [if_pos hs] at hc
    have h1 : b / 16 < 16 := by omega
    have h2 : b % 16 < 16 := by omega
    simp only [List.mem_cons, List.not_mem_nil, or_false] at hc
    rcases hc with rfl | rfl | rfl
    · decide
    · exact hexUpper_not_sep h1
    · exact hexUpper_not_sep h2
  · rw [if_neg hs] at hc
    simp only [List.mem_cons, List.not_mem_nil, or_false] at hc
    subst hc
    have h47 : c ≠ 47 := fun e => hs (by rw [e]; decide)
    simp [sepByte, h47, hb]

theorem encode_not_sep {s : List Nat} (hlt : ∀ b ∈ s, b < 256) (hb : 92 ∉ s) :
    ∀ c ∈ encode_path_component s, sepByte c = false := by
  intro c hc
  unfold encode_path_component at hc
  rw [List.mem_flatMap] at hc
  obtain ⟨b, hbs, hcb⟩ := hc
  exact encodeByte_not_sep (hlt b hbs) (fun e => hb (e ▸ hbs)) c hcb

/-! Helper lemmas: splitting. -/

theorem splitP_nil (f : Nat → Bool) : splitP f [] = [[]] := rfl

theorem splitP_cons_sep {f : Nat → Bool} {b : Nat} (hb : f b = true) (rest : List Nat) :
    splitP f (b :: rest) = [] :: splitP f rest := by
  simp [splitP, hb]

theorem splitP_cons_lit {f : Nat → Bool} {b : Nat} (hb : f b = false) (rest : List Nat) :
    splitP f (b :: rest) = (splitP f rest).modifyHead (fun s => b :: s) := by
  simp [splitP, hb]

theorem splitP_ne_nil (f : Nat → Bool) (p : List Nat) : splitP f p ≠ [] := by
  induction p with
  | nil => simp [splitP]
  | cons b rest ih =>
    unfold splitP
    split
    · simp
    · cases h : splitP f rest with
      | nil => exact absurd h ih
      | cons s ss => simp

theorem splitP_append_free {f : Nat → Bool} {xs : List Nat} (hxs : ∀ b ∈ xs, f b = false)
    (ys : List Nat) :
    splitP f (xs ++ ys) = (splitP f ys).modifyHead (fun s => xs ++ s) := by
  induction xs with
  | nil => cases h : splitP f ys <;> simp [h]
  | cons b xs ih =>
    have hb : f b = false := hxs b (by simp)
    have hxs2 : ∀ c ∈ xs, f c = false := fun c hc => hxs c (List.mem_cons_of_mem _ hc)
    rw [List.cons_append, splitP_cons_lit hb, ih hxs2]
    cases h : splitP f ys with
    | nil => exact absurd h (splitP_ne_nil f ys)
    | cons s ss => simp

theorem splitP_all_free {f : Nat → Bool} {xs : List Nat} (hxs : ∀ b ∈ xs, f b = false) :
    splitP f xs = [xs] := by
  have h := splitP_append_free hxs []
  rw [List.append_nil] at h
  rw [h, splitP_nil]
  simp

theorem mem_splitP_free {f : Nat → Bool} :
    ∀ {p s : List Nat}, s ∈ splitP f p → ∀ b ∈ s, f b = false := by
  intro p
  induction p with
  | nil =>
    intro s hs b hb
    simp [splitP] at hs
    subst hs
    simp at hb
  | cons c rest ih =>
    intro s hs b hb
    by_cases hc : f c = true
    · rw [splitP_cons_sep hc] at hs
      rcases List.mem_cons.mp hs with rfl | hs2
      · simp at hb
      · exact ih hs2 b hb
    · rw [splitP_cons_lit (Bool.not_eq_true _ ▸ hc) rest] at hs
      cases h : splitP f rest with
      | nil => exact absurd h (splitP_ne_nil f rest)
      | cons t ts =>
        rw [h, List.modifyHead_cons] at hs
        rcases List.mem_cons.mp hs with rfl | hs2
        · rcases List.mem_cons.mp hb with rfl | hb2
          · simpa using hc
          · exact ih (h ▸ List.mem_cons_self t ts) b hb2
        · exact ih (h ▸ List.mem_cons_of_mem t hs2) b hb

theorem mem_splitP_subset {f : Nat → Bool} :
    ∀ {p s : List Nat}, s ∈ splitP f p → ∀ b ∈ s, b ∈ p := by
  intro p
  induction p with
  | nil =>
    intro s hs b hb
    simp [splitP] at hs
    subst hs
    simp at hb
  | cons c rest ih =>
    intro s hs b hb
    by_cases hc : f c = true
    · rw [splitP_cons_sep hc] at hs
      rcases List.mem_cons.mp hs with rfl | hs2
      · simp at hb
      · exact List.mem_cons_of_mem _ (ih hs2 b hb)
    · rw [splitP_cons_lit (Bool.not_eq_true _ ▸ hc) rest] at hs
      cases h : splitP f rest with
      | nil => exact absurd h (splitP_ne_nil f rest)
      | cons t ts =>
        rw [h, List.modifyHead_cons] at hs
        rcases List.mem_cons.mp hs with rfl | hs2
        · rcases List.mem_cons.mp hb with rfl | hb2
          · simp
          · exact List.mem_cons_of_mem _ (ih (h ▸ List.mem_cons_self t ts) b hb2)
        · exact List.mem_cons_of_mem _ (ih (h ▸ List.mem_cons_of_mem t hs2) b hb)

/-! Helper lemmas: joining. -/

theorem joinSlash_nil : joinSlash [] = [] := rfl

theorem joinSlash_singleton (s : List Nat) : joinSlash [s] = s := by
  simp [joinSlash]

theorem joinSlash_cons_cons (s s2 : List Nat) (rest : List (List Nat)) :
    joinSlash (s :: s2 :: rest) = s ++ 47 :: joinSlash (s2 :: rest) := by
  simp [joinSlash]

theorem splitP_joinSlash {f : Nat → Bool} (hf : f 47 = true) :
    ∀ {segs : List (List Nat)}, segs ≠ [] →
      (∀ s ∈ segs, ∀ b ∈ s, f b = false) →
      splitP f (joinSlash segs) = segs := by
  intro segs
  induction segs with
  | nil => intro h; exact absurd rfl h
  | cons s rest ih =>
    intro _ hfree
    cases rest with
    | nil =>
      rw [joinSlash_singleton]
      exact splitP_all_free (hfree s (by simp))
    | cons s2 rest2 =>
      rw [joinSlash_cons_cons, splitP_append_free (hfree s (by simp)),
        splitP_cons_sep hf,
        ih (by simp) (fun t ht b hb => hfree t (List.mem_cons_of_mem _ ht) b hb)]
      simp

/-! Helper lemmas: roots and pushing. -/

theorem hasRoot_nil : hasRoot [] = false := rfl

theorem hasRoot_cons (b : Nat) (t : List Nat) : hasRoot (b :: t) = (b == 47) := by
  simp [hasRoot]

theorem hasRoot_of_cons47 (t : List Nat) : hasRoot (47 :: t) = true := by
  simp [hasRoot]

theorem hasRoot_eq_false_of_not_mem {s : List Nat} (h : 47 ∉ s) : hasRoot s = false := by
  cases s with
  | nil => rfl
  | cons b t =>
    rw [hasRoot_cons]
    simp only [beq_eq_false_iff_ne, ne_eq]
    intro e
    exact h (by simp [e])

theorem includeCurDir_of_hasRoot {p : List Nat} (h : hasRoot p = true) :
    includeCurDir p = false := by
  cases p with
  | nil => simp [hasRoot] at h
  | cons b t =>
    rw [hasRoot_cons] at h
    have hb : b = 47 := by simpa using h
    subst hb
    cases t with
    | nil => rfl
    | cons c t2 => rfl

theorem pushPath_absolute {q : List Nat} (self : List Nat) (hq : hasRoot q = true) :
    pushPath self q = q := by
  simp [pushPath, hq]

theorem pushPath_with_sep {self q : List Nat} (hq : hasRoot q = false)
    (h1 : self ≠ []) (h2 : self.getLast? ≠ some 47) :
    pushPath self q = self ++ 47 :: q := by
  have hie : self.isEmpty = false := by simpa [List.isEmpty_iff] using h1
  have hgl : (self.getLast? == some 47) = false := by simpa using h2
  simp [pushPath, hq, hie, hgl]

theorem pushPath_no_sep {self q : List Nat} (hq : hasRoot q = false)
    (h : self = [] ∨ self.getLast? = some 47) :
    pushPath self q = self ++ q := by
  rcases h with rfl | hgl
  · simp [pushPath, hq]
  · simp [pushPath, hq, hgl]

theorem hasRoot_pushPath {acc : List Nat} (h : hasRoot acc = true) (q : List Nat) :
    hasRoot (pushPath acc q) = true := by
  obtain ⟨t, rfl⟩ : ∃ t, acc = 47 :: t := by
    cases acc with
    | nil => simp [hasRoot] at h
    | cons b t =>
      rw [hasRoot_cons] at h
      exact ⟨t, by simpa using (beq_iff_eq.mp h : b = 47) ▸ rfl⟩
  unfold pushPath
  split
  · assumption
  · split <;> exact hasRoot_of_cons47 _

theorem hasRoot_foldl_pushPath :
    ∀ (l : List (List Nat)) (acc : List Nat), hasRoot acc = true →
      hasRoot (List.foldl pushPath acc l) = true := by
  intro l
  induction l with
  | nil => intro acc h; exact h
  | cons q l ih =>
    intro acc h
    rw [List.foldl_cons]
    exact ih _ (hasRoot_pushPath h q)

theorem getLast?_mem_ne {s : List Nat} (hne : s ≠ []) (h47 : 47 ∉ s) :
    ∃ c, s.getLast? = some c ∧ c ≠ 47 := by
  cases hgl : s.getLast? with
  | none => exact absurd (List.getLast?_eq_none_iff.mp hgl) hne
  | some c =>
    refine ⟨c, rfl, fun e => h47 ?_⟩
    exact e ▸ List.mem_of_getLast?_eq_some hgl

theorem foldl_push_after :
    ∀ (pieces : List (List Nat)) (acc : List Nat) (c : Nat),
      acc.getLast? = some c → c ≠ 47 →
      (∀ s ∈ pieces, s ≠ [] ∧ 47 ∉ s) →
      List.foldl pushPath acc pieces = acc ++ pieces.flatMap (fun s => 47 :: s) := by
  intro pieces
  induction pieces with
  | nil => intro acc c _ _ _; simp
  | cons s ps ih =>
    intro acc c hlast hc hall
    have hs := hall s (by simp)
    have hroot : hasRoot s = false := hasRoot_eq_false_of_not_mem hs.2
    have hane : acc ≠ [] := by
      intro e
      rw [e] at hlast
      simp at hlast
    rw [List.foldl_cons, pushPath_with_sep hroot hane (by rw [hlast]; simpa using hc)]
    obtain ⟨c2, hc2, hc2ne⟩ := getLast?_mem_ne hs.1 hs.2
    rw [ih (acc ++ 47 :: s) c2 (by rw [List.getLast?_append]; cases s with
          | nil => exact absurd rfl hs.1
          | cons x t => rw [List.getLast?_cons_cons, hc2]; rfl) hc2ne
        (fun t ht => hall t (List.mem_cons_of_mem _ ht))]
    simp

theorem flatMap_sep_join :
    ∀ (ps : List (List Nat)), ps ≠ [] →
      ps.flatMap (fun s => 47 :: s) = 47 :: joinSlash ps := by
  intro ps
  induction ps with
  | nil => intro h; exact absurd rfl h
  | cons s ps ih =>
    intro _
    cases ps with
    | nil => simp [joinSlash]
    | cons s2 ps2 =>
      rw [List.flatMap_cons, ih (by simp), joinSlash_cons_cons]
      simp

theorem foldl_push_root (pieces : List (List Nat))
    (h : ∀ s ∈ pieces, s ≠ [] ∧ 47 ∉ s) :
    List.foldl pushPath [47] pieces = 47 :: joinSlash pieces := by
  cases pieces with
  | nil => rfl
  | cons s ps =>
    have hs := h s (by simp)
    have hroot : hasRoot s = false := hasRoot_eq_false_of_not_mem hs.2
    rw [List.foldl_cons, pushPath_no_sep hroot (Or.inr (by decide))]
    cases ps with
    | nil => simp [joinSlash]
    | cons s2 ps2 =>
      obtain ⟨c2, hc2, hc2ne⟩ := getLast?_mem_ne hs.1 hs.2
      rw [foldl_push_after (s2 :: ps2) ([47] ++ s) c2
          (by rw [List.getLast?_append, hc2]; rfl) hc2ne
          (fun t ht => h t (List.mem_cons_of_mem _ ht)),
        flatMap_sep_join (s2 :: ps2) (by simp), joinSlash_cons_cons]
      simp

/-! Helper lemmas: components. -/

theorem components_of_hasRoot {p : List Nat} (h : hasRoot p = true) :
    components p = PathComponent.rootDir :: (goodPieces p).map pieceToComponent := by
  simp [components, h, includeCurDir_of_hasRoot h]

theorem pieceToComponent_ne_rootDir (s : List Nat) :
    pieceToComponent s ≠ PathComponent.rootDir := by
  unfold pieceToComponent
  split <;> simp

theorem components_tail_no_rootDir (p : List Nat) :
    ∀ c ∈ (if includeCurDir p then [PathComponent.curDir] else []) ++
        (goodPieces p).map pieceToComponent, c ≠ PathComponent.rootDir := by
  intro c hc
  rcases List.mem_append.mp hc with h1 | h2
  · split at h1
    · rcases List.mem_cons.mp h1 with rfl | h
      · simp
      · simp at h
    · simp at h1
  · obtain ⟨s, _, rfl⟩ := List.mem_map.mp h2
    exact pieceToComponent_ne_rootDir s

theorem no_rootDir_after_skip (p : List Nat) :
    ∀ c ∈ (if hasRoot p then (components p).drop 1 else components p),
      c ≠ PathComponent.rootDir := by
  intro c hc
  by_cases hr : hasRoot p = true
  · rw [if_pos hr, components_of_hasRoot hr, List.drop_one, List.tail_cons] at hc
    obtain ⟨s, _, rfl⟩ := List.mem_map.mp hc
    exact pieceToComponent_ne_rootDir s
  · rw [if_neg hr] at hc
    simp only [components] at hc
    rw [if_neg hr, List.nil_append] at hc
    exact components_tail_no_rootDir p c hc

/-! Helper lemmas: segment mapping. -/

theorem componentToSegmentWith_ne_rootDir (f : List Nat → List Nat)
    {c : PathComponent} (h : c ≠ PathComponent.rootDir) :
    componentToSegmentWith f c = some (totalSegmentWith f c) := by
  cases c with
  | rootDir => exact absurd rfl h
  | curDir => rfl
  | parentDir => rfl
  | normal s => rfl

theorem mapSegments_eq_map (f : List Nat → List Nat) :
    ∀ {cs : List PathComponent}, (∀ c ∈ cs, c ≠ PathComponent.rootDir) →
      mapSegments f cs = some (cs.map (totalSegmentWith f)) := by
  intro cs
  induction cs with
  | nil => intro _; rfl
  | cons c cs ih =>
    intro h
    unfold mapSegments
    rw [componentToSegmentWith_ne_rootDir f (h c (by simp)),
      ih (fun d hd => h d (List.mem_cons_of_mem _ hd))]
    rfl

/-! Helper lemmas: the piece map of file_url_to_pathbuf. -/

theorem enumFrom_map_piece (l : List (List Nat)) :
    ∀ n, n ≠ 0 →
      (List.enumFrom n l).map (fun q => urlPieceToOsString q.1 q.2) =
        l.map decode_path_component := by
  induction l with
  | nil => intro n _; rfl
  | cons s rest ih =>
    intro n hn
    rw [List.enumFrom_cons, List.map_cons, List.map_cons, ih (n + 1) (by omega)]
    congr 1
    simp [urlPieceToOsString, hn]

theorem file_url_pieces {url s : List Nat} {rest : List (List Nat)}
    (h : splitP sepByte url = s :: rest) :
    file_url_to_pathbuf url =
      pathCollect ((if s = fileScheme then [47] else decode_path_component s) ::
        rest.map decode_path_component) := by
  unfold file_url_to_pathbuf
  rw [h, List.enum_cons, List.map_cons, enumFrom_map_piece rest 1 (by omega)]
  congr 2
  simp [urlPieceToOsString]

/-! Helper lemmas: surviving pieces and their segments. -/

theorem goodPieces_spec {p s : List Nat} (hs : s ∈ goodPieces p) :
    s ≠ [] ∧ s ≠ [46] ∧ 47 ∉ s ∧ ∀ b ∈ s, b ∈ p := by
  rw [goodPieces, List.mem_filter] at hs
  obtain ⟨hsp, hgood⟩ := hs
  have h1 : ¬s.isEmpty ∧ ¬(s == [46]) = true := by
    simpa [isGoodPiece] using hgood
  refine ⟨by simpa [List.isEmpty_iff] using h1.1, by simpa using h1.2, ?_,
    mem_splitP_subset hsp⟩
  intro h47
  have := mem_splitP_free hsp 47 h47
  simp [slashByte] at this

theorem isGoodPiece_true {s : List Nat} (h1 : s ≠ []) (h2 : s ≠ [46]) :
    isGoodPiece s = true := by
  have hie : s.isEmpty = false := by simpa [List.isEmpty_iff] using h1
  simp [isGoodPiece, hie, h2]

theorem decode_totalSegment {s : List Nat} (hlt : ∀ b ∈ s, b < 256) (hp : 37 ∉ s) :
    decode_path_component (totalSegment (pieceToComponent s)) = s := by
  unfold pieceToComponent
  split
  · rename_i h
    subst h
    decide
  · exact decode_encode hlt hp

theorem totalSegment_sep_free {s : List Nat} (hlt : ∀ b ∈ s, b < 256) (h92 : 92 ∉ s) :
    ∀ c ∈ totalSegment (pieceToComponent s), sepByte c = false := by
  unfold pieceToComponent
  split
  · rename_i h
    subst h
    decide
  · exact encode_not_sep hlt h92

theorem to_file_url_of_hasRoot {p : List Nat} (hr : hasRoot p = true) :
    to_file_url p = some (fileUrlHead ++ joinSlash
      ((goodPieces p).map (fun s => totalSegment (pieceToComponent s)))) := by
  simp only [to_file_url, toFileUrlWith, hr, if_true]
  rw [components_of_hasRoot hr, List.drop_one, List.tail_cons,
    mapSegments_eq_map encode_path_component (fun c hc => by
      obtain ⟨s, _, rfl⟩ := List.mem_map.mp hc
      exact pieceToComponent_ne_rootDir s)]
  simp only [totalSegment, Option.map_some, Option.some.injEq, List.map_map]
  rfl

/-! Additional helper lemmas for the claims. -/

theorem decode_cons_short (rest : List Nat)
    (hshort : ∀ h l rest2, rest = h :: l :: rest2 → (isHexDigit h && isHexDigit l) = false) :
    decode_path_component (37 :: rest) = 37 :: decode_path_component rest := by
  cases rest with
  | nil => rfl
  | cons x t =>
    cases t with
    | nil => rfl
    | cons y t2 =>
      have hx := hshort x y t2 rfl
      simp [decode_path_component, hx]

theorem decode_bytes_bound :
    ∀ (n : Nat) (bs : List Nat), bs.length ≤ n → (∀ b ∈ bs, b < 256) →
      ∀ c ∈ decode_path_component bs, c < 256 := by
  intro n
  induction n with
  | zero =>
    intro bs hlen _ c hc
    have hbs : bs = [] := List.length_eq_zero.mp (Nat.le_zero.mp hlen)
    subst hbs
    simp [decode_nil] at hc
  | succ n ih =>
    intro bs hlen hbs c hc
    cases bs with
    | nil => simp [decode_nil] at hc
    | cons b rest =>
      by_cases hb : b = 37
      · subst hb
        cases rest with
        | nil =>
          simp [decode_path_component] at hc
          omega
        | cons x t =>
          cases t with
          | nil =>
            have he : decode_path_component [37, x] = 37 :: decode_path_component [x] := rfl
            rw [he] at hc
            rcases List.mem_cons.mp hc with rfl | hc2
            · omega
            · exact ih [x] (by simp at hlen ⊢; omega)
                (fun d hd => hbs d (by simp at hd; simp [hd])) c hc2
          | cons y t2 =>
            by_cases hx : (isHexDigit x && isHexDigit y) = true
            · rw [decode_pct_hex t2 (Bool.and_eq_true _ _ ▸ hx).1
                (Bool.and_eq_true _ _ ▸ hx).2] at hc
              rcases List.mem_cons.mp hc with rfl | hc2
              · have hvx := hexVal_lt (Bool.and_eq_true _ _ ▸ hx).1
                have hvy := hexVal_lt (Bool.and_eq_true _ _ ▸ hx).2
                omega
              · exact ih t2 (by simp at hlen ⊢; omega)
                  (fun d hd => hbs d (by simp [hd])) c hc2
            · rw [decode_cons_short (x :: y :: t2)
                (fun h l r2 he => by
                  rw [List.cons.injEq, List.cons.injEq] at he
                  obtain ⟨rfl, rfl, _⟩ := he
                  simpa using hx)] at hc
              rcases List.mem_cons.mp hc with rfl | hc2
              · omega
              · exact ih (x :: y :: t2) (by simp at hlen ⊢; omega)
                  (fun d hd => hbs d (List.mem_cons_of_mem _ hd)) c hc2
      · rw [decode_cons_lit rest hb] at hc
        rcases List.mem_cons.mp hc with rfl | hc2
        · exact hbs c (by simp)
        · exact ih rest (by simp at hlen ⊢; omega)
            (fun d hd => hbs d (List.mem_cons_of_mem _ hd)) c hc2

theorem goodPieces_root_join (gs : List (List Nat))
    (h : ∀ s ∈ gs, s ≠ [] ∧ s ≠ [46] ∧ 47 ∉ s) (hne : gs ≠ []) :
    goodPieces (47 :: joinSlash gs) = gs := by
  unfold goodPieces
  rw [splitP_cons_sep (by decide),
    splitP_joinSlash (by decide) hne (fun s hs b hb => by
      have h47 : b ≠ 47 := fun e => (h s hs).2.2 (e ▸ hb)
      simp [slashByte, h47]),
    List.filter_cons_of_neg (by decide),
    List.filter_eq_self.mpr (fun s hs => isGoodPiece_true (h s hs).1 (h s hs).2.1)]

/-! The claims. -/

/-- C1, counterexample: the byte string percent four one contains no
separator byte, yet decoding its encoding yields the single byte 65, not
the original three bytes, because encode leaves the percent byte 37
unescaped and decode then consumes it as an escape. -/
theorem c1_counterexample :
    47 ∉ [37, 52, 49] ∧
      decode_path_component (encode_path_component [37, 52, 49]) ≠ [37, 52, 49] := by
  decide

/-- C1 as amended: for every byte sequence that contains neither the
separator byte 47 nor the percent byte 37, decoding the encoding
reproduces the bytes exactly. -/
theorem c1_amended_roundtrip (bs : List Nat) (hlt : ∀ b ∈ bs, b < 256)
    (h47 : 47 ∉ bs) (h37 : 37 ∉ bs) :
    decode_path_component (encode_path_component bs) = bs :=
  decode_encode hlt h37

/-- Witness for c1_amended_roundtrip at the two bytes space and lowercase a. -/
theorem c1_witness :
    decode_path_component (encode_path_component [32, 97]) = [32, 97] :=
  c1_amended_roundtrip [32, 97] (by decide) (by decide) (by decide)

/-- C2, counterexample: the percent byte itself is not re-escaped; encoding
the single byte 37 yields the single byte 37 rather than the three-byte
escape percent two five. -/
theorem c2_counterexample :
    encode_path_component [37] = [37] ∧ encode_path_component [37] ≠ [37, 50, 53] := by
  decide

/-- C2 as amended: a byte is emitted literally iff it is ASCII and not in
the FILE_URL_BYTES set; every non-ASCII byte and every byte of the set is
emitted as a percent byte followed by two uppercase hex digits.  The
percent byte, not being in the set, is therefore emitted literally. -/
theorem c2_amended_byte (b : Nat) (hb : b < 256) :
    encode_path_component [b] =
      if b < 128 ∧ FILE_URL_BYTES b = false then [b]
      else [37, hexUpper (b / 16), hexUpper (b % 16)] := by
  rw [encode_singleton]
  unfold encodeByte shouldEncode
  rcases Nat.lt_or_ge b 128 with h | h <;> cases hFB : FILE_URL_BYTES b
  · simp [Nat.not_le.mpr h, hFB, h]
  · simp [Nat.not_le.mpr h, hFB]
  · simp [h, hFB, Nat.not_lt.mpr h]
  · simp [h, hFB, Nat.not_lt.mpr h]

/-- Witness for c2_amended_byte at the non-ASCII byte 200. -/
theorem c2_witness :
    encode_path_component [200] =
      (if 200 < 128 ∧ FILE_URL_BYTES 200 = false then [200]
       else [37, hexUpper (200 / 16), hexUpper (200 % 16)]) :=
  c2_amended_byte 200 (by decide)

/-- C4: file_url_to_pathbuf splits its input at every slash and backslash
byte; the piece at index zero is replaced by the root marker exactly when
it is the literal scheme token, and every other piece goes through
decode_path_component before the pieces are collected into a path. -/
theorem c4_split_scheme_decode :
    (∀ b, sepByte b = true ↔ b = 47 ∨ b = 92) ∧
    (∀ (url s : List Nat) (rest : List (List Nat)), splitP sepByte url = s :: rest →
      file_url_to_pathbuf url =
        pathCollect ((if s = fileScheme then [47] else decode_path_component s) ::
          rest.map decode_path_component)) :=
  ⟨fun b => by simp [sepByte], fun url s rest h => file_url_pieces h⟩

/-- Witness for c4_split_scheme_decode on the input file colon slash a. -/
theorem c4_witness :
    file_url_to_pathbuf [102, 105, 108, 101, 58, 47, 97] =
      pathCollect ((if fileScheme = fileScheme then [47]
        else decode_path_component fileScheme) :: [[97]].map decode_path_component) :=
  c4_split_scheme_decode.2 [102, 105, 108, 101, 58, 47, 97] fileScheme [[97]] (by decide)

/-- C5, counterexample: the scheme-less input consisting of the single byte
lowercase a produces a path without the root marker, so not every input
yields an absolute path. -/
theorem c5_counterexample : hasRoot (file_url_to_pathbuf [97]) = false := by decide

/-- C5 as amended: whenever the first piece of the slash-and-backslash
split of the input is exactly the scheme token, the resulting path is
absolute; other inputs can remain relative. -/
theorem c5_amended_scheme_absolute (url : List Nat) (rest : List (List Nat))
    (h : splitP sepByte url = fileScheme :: rest) :
    hasRoot (file_url_to_pathbuf url) = true := by
  rw [file_url_pieces h, if_pos rfl]
  unfold pathCollect
  rw [List.foldl_cons, show pushPath [] [47] = [47] from by decide]
  exact hasRoot_foldl_pushPath _ _ (by decide)

/-- Witness for c5_amended_scheme_absolute on the input file colon slash a. -/
theorem c5_witness :
    hasRoot (file_url_to_pathbuf [102, 105, 108, 101, 58, 47, 97]) = true :=
  c5_amended_scheme_absolute [102, 105, 108, 101, 58, 47, 97] [[97]] (by decide)

/-- C6: decode_path_component is total and lenient: it maps byte lists to
byte lists with no failure case; a literal byte is copied, a well-formed
percent escape yields the decoded byte value, a malformed escape passes
the literal percent through and decoding continues on the remaining
bytes, and byte-valued input yields byte-valued output. -/
theorem c6_decode_lenient_total :
    (decode_path_component [] = []) ∧
    (∀ b rest, b ≠ 37 →
      decode_path_component (b :: rest) = b :: decode_path_component rest) ∧
    (∀ h l rest, isHexDigit h = true → isHexDigit l = true →
      decode_path_component (37 :: h :: l :: rest) =
        (hexVal h * 16 + hexVal l) :: decode_path_component rest) ∧
    (∀ rest, (∀ h l rest2, rest = h :: l :: rest2 →
        (isHexDigit h && isHexDigit l) = false) →
      decode_path_component (37 :: rest) = 37 :: decode_path_component rest) ∧
    (∀ bs, (∀ b ∈ bs, b < 256) → ∀ c ∈ decode_path_component bs, c < 256) :=
  ⟨rfl, fun b rest hb => decode_cons_lit rest hb,
    fun h l rest hh hl => decode_pct_hex rest hh hl,
    fun rest hshort => decode_cons_short rest hshort,
    fun bs hbs => decode_bytes_bound bs.length bs (Nat.le_refl _) hbs⟩

/-- Witness for c6_decode_lenient_total on the well-formed escape percent
four one. -/
theorem c6_witness :
    decode_path_component [37, 52, 49] =
      (hexVal 52 * 16 + hexVal 49) :: decode_path_component [] :=
  c6_decode_lenient_total.2.2.1 52 49 [] (by decide) (by decide)

/-- C7: every byte of the FILE_URL_BYTES reserved set is always encoded to
its uppercase-hex escape wherever it occurs, and the colon byte 58 is
never escaped wherever it occurs. -/
theorem c7_reserved_complete :
    (∀ pre post b, FILE_URL_BYTES b = true →
      encode_path_component (pre ++ b :: post) =
        encode_path_component pre ++
          37 :: hexUpper (b / 16) :: hexUpper (b % 16) :: encode_path_component post) ∧
    (∀ pre post, encode_path_component (pre ++ 58 :: post) =
      encode_path_component pre ++ 58 :: encode_path_component post) := by
  constructor
  · intro pre post b hb
    rw [encode_append, encode_cons,
      show encodeByte b = [37, hexUpper (b / 16), hexUpper (b % 16)] from by
        unfold encodeByte
        rw [if_pos (by simp [shouldEncode, hb])]]
    simp
  · intro pre post
    rw [encode_append, encode_cons, show encodeByte 58 = [58] from by decide]
    simp

/-- Witness for c7_reserved_complete at the slash byte 47 and the colon. -/
theorem c7_witness :
    encode_path_component ([] ++ 47 :: []) =
      encode_path_component [] ++
        37 :: hexUpper (47 / 16) :: hexUpper (47 % 16) :: encode_path_component [] :=
  c7_reserved_complete.1 [] [] 47 (by decide)

theorem mapSegments_congr {f g : List Nat → List Nat} :
    ∀ {cs : List PathComponent}, (∀ c ∈ cs, ∀ s, c ≠ PathComponent.normal s) →
      mapSegments f cs = mapSegments g cs := by
  intro cs
  induction cs with
  | nil => intro _; rfl
  | cons c cs2 ih =>
    intro hcs
    unfold mapSegments
    rw [ih (fun d hd s => hcs d (List.mem_cons_of_mem _ hd) s)]
    have hcf : componentToSegmentWith f c = componentToSegmentWith g c := by
      cases c with
      | normal s => exact absurd rfl (hcs _ (List.mem_cons_self _ _) s)
      | rootDir => rfl
      | curDir => rfl
      | parentDir => rfl
    rw [hcf]

/-- C8: for an absolute path the root component is skipped and contributes
no encoded segment; the output is exactly the text file, a colon, two
slashes, then one slash, then the segments of the remaining components
joined by slashes, with nothing added or removed beyond the joining. -/
theorem c8_absolute_template (p : List Nat) (hr : hasRoot p = true) :
    to_file_url p = some ([102, 105, 108, 101, 58, 47, 47] ++ 47 ::
      joinSlash (((components p).drop 1).map totalSegment)) := by
  simp only [to_file_url, toFileUrlWith, hr, if_true]
  rw [mapSegments_eq_map encode_path_component (fun c hc => by
    have hn := no_rootDir_after_skip p c
    rw [if_pos hr] at hn
    exact hn hc)]
  rfl

/-- Witness for c8_absolute_template on the path slash a. -/
theorem c8_witness :
    to_file_url [47, 97] = some ([102, 105, 108, 101, 58, 47, 47] ++ 47 ::
      joinSlash (((components [47, 97]).drop 1).map totalSegment)) :=
  c8_absolute_template [47, 97] (by decide)

/-- C9: dot and double-dot components are passed through literally: in the
mapped segment list they appear as the one-byte dot string and the
two-byte double-dot string at the same positions, and the result of
to_file_url does not depend on the encoding function at all on paths
without Normal components. -/
theorem c9_dot_literal :
    (∀ (f : List Nat → List Nat) (cs : List PathComponent) (segs : List (List Nat))
        (i : Nat), mapSegments f cs = some segs →
      (cs[i]? = some PathComponent.curDir → segs[i]? = some [46]) ∧
      (cs[i]? = some PathComponent.parentDir → segs[i]? = some [46, 46])) ∧
    (∀ (f g : List Nat → List Nat) (p : List Nat),
      (∀ s, PathComponent.normal s ∉ components p) →
      toFileUrlWith f p = toFileUrlWith g p) := by
  constructor
  · intro f cs
    induction cs with
    | nil =>
      intro segs i h
      simp only [mapSegments] at h
      obtain rfl : ([] : List (List Nat)) = segs := by simpa using h
      constructor <;> intro h2 <;> simp at h2
    | cons c cs ih =>
      intro segs i h
      unfold mapSegments at h
      cases hm1 : componentToSegmentWith f c with
      | none => rw [hm1] at h; simp at h
      | some s =>
        cases hm2 : mapSegments f cs with
        | none => rw [hm1, hm2] at h; simp at h
        | some rest =>
          rw [hm1, hm2] at h
          obtain rfl : s :: rest = segs := by simpa using h
          cases i with
          | zero =>
            constructor <;> intro hg <;>
              · obtain rfl : c = _ := by simpa using hg
                simp only [List.getElem?_cons_zero, Option.some.injEq]
                have : componentToSegmentWith f _ = some _ := hm1
                simpa [componentToSegmentWith] using this.symm
          | succ i =>
            have ihr := ih rest i hm2
            constructor <;> intro hg <;>
              simp only [List.getElem?_cons_succ] at hg ⊢
            · exact ihr.1 hg
            · exact ihr.2 hg
  · intro f g p h
    have hcs : ∀ c ∈ (if hasRoot p then (components p).drop 1 else components p),
        ∀ s, c ≠ PathComponent.normal s := by
      intro c hc s he
      subst he
      apply h s
      by_cases hr : hasRoot p = true
      · rw [if_pos hr] at hc
        exact List.drop_subset 1 (components p) hc
      · rw [if_neg hr] at hc
        exact hc
    simp only [toFileUrlWith]
    rw [mapSegments_congr hcs]

/-- Witness for c9_dot_literal: on the double-dot path the output of
toFileUrlWith is the same for two different encoding functions. -/
theorem c9_witness :
    toFileUrlWith (fun s => 37 :: s) [46, 46] = toFileUrlWith (fun _ => []) [46, 46] :=
  c9_dot_literal.2 (fun s => 37 :: s) (fun _ => []) [46, 46] (by
    intro s hs
    rw [show components [46, 46] = [PathComponent.parentDir] from by decide] at hs
    simp at hs)

/-- C10: on the Unix target to_file_url never reaches the panic arm: after
the root component is skipped every remaining component is CurDir,
ParentDir or Normal, so the function always returns a URL. -/
theorem c10_no_panic (p : List Nat) : (to_file_url p).isSome = true := by
  simp only [to_file_url, toFileUrlWith]
  rw [mapSegments_eq_map encode_path_component (no_rootDir_after_skip p)]
  rfl

/-- C3, counterexample: the relative path consisting of the single byte
lowercase a maps to the URL file colon three slashes a, which maps back to
the absolute path slash a; path equality is component equality in the
standard library, and the component lists differ. -/
theorem c3_counterexample :
    to_file_url [97] = some [102, 105, 108, 101, 58, 47, 47, 47, 97] ∧
      components (file_url_to_pathbuf [102, 105, 108, 101, 58, 47, 47, 47, 97]) ≠
        components [97] := by
  decide

/-- C3 as amended: for every absolute path whose bytes include neither the
percent byte 37 nor the backslash byte 92, converting to a file URL and
back yields an equal path, where path equality is the component equality
used by the standard library. -/
theorem c3_amended_roundtrip (p url : List Nat) (hr : hasRoot p = true)
    (hlt : ∀ b ∈ p, b < 256) (h37 : 37 ∉ p) (h92 : 92 ∉ p)
    (hurl : to_file_url p = some url) :
    components (file_url_to_pathbuf url) = components p := by
  rw [to_file_url_of_hasRoot hr] at hurl
  obtain rfl : url = fileUrlHead ++ joinSlash
      ((goodPieces p).map (fun s => totalSegment (pieceToComponent s))) := by
    injection hurl with h
    exact h.symm
  have hgs : ∀ s ∈ goodPieces p,
      s ≠ [] ∧ s ≠ [46] ∧ 47 ∉ s ∧ (∀ b ∈ s, b < 256) ∧ 37 ∉ s ∧ 92 ∉ s := by
    intro s hs
    obtain ⟨h1, h2, h3, h4⟩ := goodPieces_spec hs
    exact ⟨h1, h2, h3, fun b hb => hlt b (h4 b hb),
      fun hm => h37 (h4 37 hm), fun hm => h92 (h4 92 hm)⟩
  have hsegfree : ∀ t ∈ (goodPieces p).map (fun s => totalSegment (pieceToComponent s)),
      ∀ b ∈ t, sepByte b = false := by
    intro t ht
    obtain ⟨s, hsmem, rfl⟩ := List.mem_map.mp ht
    obtain ⟨-, -, -, h4, -, h6⟩ := hgs s hsmem
    exact totalSegment_sep_free h4 h6
  rcases eq_or_ne (goodPieces p) [] with hnil | hne
  · rw [components_of_hasRoot hr, hnil]
    decide
  · have hsplit0 : splitP sepByte (fileUrlHead ++ joinSlash
        ((goodPieces p).map (fun s => totalSegment (pieceToComponent s)))) =
        fileScheme :: [] :: [] ::
          ((goodPieces p).map (fun s => totalSegment (pieceToComponent s))) := by
      rw [show fileUrlHead ++ joinSlash
            ((goodPieces p).map (fun s => totalSegment (pieceToComponent s))) =
          fileScheme ++ (47 :: 47 :: 47 :: joinSlash
            ((goodPieces p).map (fun s => totalSegment (pieceToComponent s)))) from rfl,
        splitP_append_free (by decide), splitP_cons_sep (by decide),
        splitP_cons_sep (by decide), splitP_cons_sep (by decide),
        splitP_joinSlash (by decide) (by simpa using hne) hsegfree]
      simp
    rw [file_url_pieces hsplit0, if_pos rfl, List.map_cons, List.map_cons, decode_nil]
    have hdec : ((goodPieces p).map (fun s => totalSegment (pieceToComponent s))).map
        decode_path_component = goodPieces p := by
      rw [List.map_map]
      rw [List.map_congr_left (fun s hs => by
        obtain ⟨-, -, -, h4, h5, -⟩ := hgs s hs
        simpa [Function.comp] using decode_totalSegment h4 h5)]
      exact List.map_id _
    rw [hdec]
    unfold pathCollect
    rw [List.foldl_cons, List.foldl_cons, List.foldl_cons,
      show pushPath [] [47] = [47] from by decide,
      show pushPath [47] [] = [47] from by decide,
      show pushPath [47] [] = [47] from by decide,
      foldl_push_root (goodPieces p) (fun s hs => ⟨(hgs s hs).1, (hgs s hs).2.2.1⟩),
      components_of_hasRoot (hasRoot_of_cons47 _), components_of_hasRoot hr,
      goodPieces_root_join (goodPieces p)
        (fun s hs => ⟨(hgs s hs).1, (hgs s hs).2.1, (hgs s hs).2.2.1⟩) hne]

/-- Witness for c3_amended_roundtrip on the path slash a. -/
theorem c3_witness :
    components (file_url_to_pathbuf [102, 105, 108, 101, 58, 47, 47, 47, 97]) =
      components [47, 97] :=
  c3_amended_roundtrip [47, 97] [102, 105, 108, 101, 58, 47, 47, 47, 97]
    (by decide) (by decide) (by decide) (by decide) (by decide)

example : encode_path_component [47, 103, 105, 62] = [37, 50, 70, 103, 105, 37, 51, 69] := by decide

example : decode_path_component [37, 50, 48] = [32] := by decide

example : to_file_url [47, 97, 32, 98] =
    some [102, 105, 108, 101, 58, 47, 47, 47, 97, 37, 50, 48, 98] := by decide

example : file_url_to_pathbuf [102, 105, 108, 101, 58, 47, 47, 47, 97, 37, 50, 48, 98] =
    [47, 97, 32, 98] := by decide

end FileUrl
